import Mathlib

/-!
Verification of the conditional Gaussian kernel density estimator described by
the SBI-tutorial specification, together with the probability functions of the
tutorial notebooks.  Floating-point arrays are modelled as lists (or `Fin`
indexed vectors) of real numbers; numpy reductions become list sums and means.
-/

namespace CondKDE

open Classical

/-- Arithmetic mean of a list of reals (`np.mean`); `0` for the empty list. -/
noncomputable def mean (l : List ℝ) : ℝ := l.sum / l.length

/-- Column `j` of a row-major sample matrix (`samples[:, j]`). -/
def column (j : ℕ) (samples : List (List ℝ)) : List ℝ :=
  samples.map (fun r => r.getD j 0)

/-- Empirical (population) variance of a list of reals (`np.var`). -/
noncomputable def variance (l : List ℝ) : ℝ :=
  mean (l.map (fun x => (x - mean l) ^ 2))

/-- Empirical covariance matrix of a sample matrix with `D` columns
(`np.cov` with population normalisation). -/
noncomputable def covMatrix (D : ℕ) (samples : List (List ℝ)) :
    Matrix (Fin D) (Fin D) ℝ := fun j k =>
  mean (samples.map (fun r =>
    (r.getD (j : ℕ) 0 - mean (column (j : ℕ) samples)) *
      (r.getD (k : ℕ) 0 - mean (column (k : ℕ) samples))))

/-- Modelled from the spec: the error surface of the estimator
(`DegenerateInputError`, `InvalidConditioningError`, `ShapeMismatchError`);
the `conditional_kde` library itself is not part of this repository. -/
inductive KDEError where
  | degenerateInput
  | invalidConditioning
  | shapeMismatch
deriving DecidableEq

/-- Modelled from the spec: a fitted conditional Gaussian kernel density
estimator.  `features` is the ordered feature-name list fixed at fit time,
`data` the stored (whitened) sample matrix, `h` the resolved bandwidth. -/
structure KDE where
  features : List String
  data : List (List ℝ)
  dataNonempty : data ≠ []
  h : ℝ
  hPos : 0 < h

/-- Number of features of a fitted estimator. -/
@[reducible] def KDE.D (k : KDE) : ℕ := k.features.length

/-- Indices of the conditioning features among the fitted feature names. -/
def condIdx (k : KDE) (cond : Finset String) : Finset (Fin k.features.length) :=
  Finset.univ.filter (fun j => k.features.get j ∈ cond)

/-- One-dimensional Gaussian kernel of bandwidth `h`. -/
noncomputable def gaussK (h t : ℝ) : ℝ :=
  (h * Real.sqrt (2 * Real.pi))⁻¹ * Real.exp (-(t ^ 2) / (2 * h ^ 2))

/-- Product of the kernel factors of one training point `c` over the axes in
`S`, evaluated at query point `u` (the kernels are isotropic in whitened
space, so they factorise over axes). -/
noncomputable def kprod (k : KDE) (S : Finset (Fin k.features.length))
    (c u : List ℝ) : ℝ :=
  ∏ j ∈ S, gaussK k.h (u.getD (j : ℕ) 0 - c.getD (j : ℕ) 0)

/-- The fitted joint Gaussian-kernel-mixture density: a uniform mixture of
one Gaussian kernel per stored training sample. -/
noncomputable def jointDensity (k : KDE) (u : List ℝ) : ℝ :=
  ((k.data.length : ℝ))⁻¹ * (k.data.map (fun c => kprod k Finset.univ c u)).sum

/-- Marginal density of the fitted mixture on the axes in `S`. -/
noncomputable def marginalDensity (k : KDE) (S : Finset (Fin k.features.length))
    (u : List ℝ) : ℝ :=
  ((k.data.length : ℝ))⁻¹ * (k.data.map (fun c => kprod k S c u)).sum

/-- Modelled from the spec: the conditional log-density of one query point,
computed the way the spec describes the implementation — evaluate the
marginal weight of every kernel on the conditioning axes `S`, renormalise the
weights across kernels, and evaluate the reweighted mixture on the free
axes. -/
noncomputable def scoreOne (k : KDE) (S : Finset (Fin k.features.length))
    (u : List ℝ) : ℝ :=
  Real.log ((k.data.map (fun c =>
    kprod k S c u / (k.data.map (fun c => kprod k S c u)).sum *
      kprod k Sᶜ c u)).sum)

/-- Modelled from the spec: `score_samples(points, conditional_features)`.
Validates that the conditioning names form a proper subset of the fitted
feature set and that every query row has the fitted dimensionality, then
returns the conditional log-density of each row. -/
noncomputable def score_samples (k : KDE) (points : List (List ℝ))
    (cond : Finset String) : Except KDEError (List ℝ) :=
  if ¬ cond ⊂ k.features.toFinset then .error .invalidConditioning
  else if ∃ r ∈ points, r.length ≠ k.features.length then .error .shapeMismatch
  else .ok (points.map (scoreOne k (condIdx k cond)))

/-- Query point assembled from a conditioning assignment: feature `f` gets the
assigned value when `f` is a conditioning key, `0` otherwise (only the
conditioning axes are ever read through it). -/
def condPoint (k : KDE) (cond : List (String × ℝ)) : List ℝ :=
  k.features.map (fun f => (((cond.find? (fun p => p.1 = f)).map Prod.snd).getD 0))

/-- Inverse-CDF selection of a mixture component: the first index whose
running weight sum reaches the target `t`. -/
noncomputable def pickIdx : List ℝ → ℝ → ℕ
  | [], _ => 0
  | w :: ws, t => if t ≤ w then 0 else pickIdx ws (t - w) + 1

/-- Modelled from the spec: `sample(conditionals, n_samples, keep_dims)`.
Validates the conditioning names, reweights the kernels by their marginal
density at the conditioning values, selects a kernel per draw by inverse-CDF
on the injected uniform stream `unif`, and returns the kernel centre plus
bandwidth-scaled injected Gaussian noise on the free axes (the kernels are
isotropic in whitened space, so the conditional of each kernel keeps the
centre's free coordinates and covariance `h²·I`).  `keepDims` re-inserts the
conditioning columns. -/
noncomputable def sample (k : KDE) (cond : List (String × ℝ)) (n : ℕ)
    (keepDims : Bool) (unif : ℕ → ℝ) (noise : ℕ → ℕ → ℝ) :
    Except KDEError (List (List ℝ)) :=
  if ¬ (cond.map Prod.fst).toFinset ⊂ k.features.toFinset then
    .error .invalidConditioning
  else
    .ok ((List.range n).map (fun i =>
      (List.finRange k.features.length).filterMap (fun j =>
        if k.features.get j ∈ (cond.map Prod.fst).toFinset then
          (if keepDims then some ((condPoint k cond).getD (j : ℕ) 0) else none)
        else
          some (((k.data.getD (pickIdx
            (k.data.map (fun c =>
              kprod k (condIdx k (cond.map Prod.fst).toFinset) c
                (condPoint k cond)))
            (unif i *
              (k.data.map (fun c =>
                kprod k (condIdx k (cond.map Prod.fst).toFinset) c
                  (condPoint k cond))).sum)) []).getD (j : ℕ) 0 +
            k.h * noise i (j : ℕ))))))

/-- A query against a fitted estimator: either a `score_samples` call or a
`sample` call (with its injected randomness). -/
inductive Query where
  | score : List (List ℝ) → Finset String → Query
  | draw : List (String × ℝ) → ℕ → Bool → (ℕ → ℝ) → (ℕ → ℕ → ℝ) → Query

/-- Result of a single query. -/
inductive QueryResult where
  | scores : Except KDEError (List ℝ) → QueryResult
  | draws : Except KDEError (List (List ℝ)) → QueryResult

/-- Executing one query against the fitted state: the result together with
the estimator state after the call. -/
noncomputable def runQuery (k : KDE) : Query → QueryResult × KDE
  | .score pts cond => (.scores (score_samples k pts cond), k)
  | .draw cond n kd u g => (.draws (sample k cond n kd u g), k)

/-- Executing a sequence of queries, threading the estimator state. -/
noncomputable def runQueries (k : KDE) : List Query → List QueryResult × KDE
  | [] => ([], k)
  | q :: qs =>
    ((runQuery k q).1 :: (runQueries (runQuery k q).2 qs).1,
      (runQueries (runQuery k q).2 qs).2)

/-- The configured whitening algorithm. -/
inductive WhiteningAlg where
  | identity
  | rescale
  | zca
deriving DecidableEq

/-- Per-dimension empirical standard deviation of the sample matrix. -/
noncomputable def stdVec (samples : List (List ℝ)) (j : ℕ) : ℝ :=
  Real.sqrt (variance (column j samples))

/-- Modelled from the spec: the fit-time degeneracy condition of each
whitening algorithm — zero empirical variance in some dimension for
`rescale`, a singular empirical covariance matrix for `zca`. -/
def degenerate : WhiteningAlg → List String → List (List ℝ) → Prop
  | .identity, _, _ => False
  | .rescale, feats, s => ∃ j : Fin feats.length, variance (column (j : ℕ) s) = 0
  | .zca, feats, s => (covMatrix feats.length s).det = 0

/-- Modelled from the spec: the whitened row stored for one input row.
`identity` stores the row unchanged; `rescale` divides each coordinate by its
dimension's standard deviation.  The `zca` success path whitens along the
eigendecomposition of the covariance matrix; as no closed form of the
eigendecomposition is available, the model stores the raw row there (no claim
depends on the success value of a `zca` fit). -/
noncomputable def rowWhiten (alg : WhiteningAlg) (feats : List String)
    (samples : List (List ℝ)) (r : List ℝ) : List ℝ :=
  match alg with
  | .identity => r
  | .rescale => (List.range feats.length).map (fun j => r.getD j 0 / stdVec samples j)
  | .zca => r

/-- Inverse of the fit-time row whitening: `identity` is its own inverse;
`rescale` multiplies each coordinate back by its dimension's standard
deviation; the `zca` inverse acts through `zcaInverseMatrix` on the
eigendecomposition and is stated there. -/
noncomputable def rowUnwhiten (alg : WhiteningAlg) (feats : List String)
    (samples : List (List ℝ)) (r : List ℝ) : List ℝ :=
  match alg with
  | .identity => r
  | .rescale => (List.range feats.length).map (fun j => r.getD j 0 * stdVec samples j)
  | .zca => r

/-- Modelled from the spec: `fit(samples, feature_names)` with a resolved
bandwidth `h`.  Whitening degeneracy is checked first and raises
`DegenerateInputError`; then the sample matrix must be nonempty and the
bandwidth positive, and the whitened samples are stored. -/
noncomputable def fit (alg : WhiteningAlg) (feats : List String)
    (samples : List (List ℝ)) (h : ℝ) : Except KDEError KDE :=
  if degenerate alg feats samples then .error .degenerateInput
  else if hd : samples.map (rowWhiten alg feats samples) = [] then
    .error .shapeMismatch
  else if hh : 0 < h then
    .ok { features := feats, data := samples.map (rowWhiten alg feats samples),
          dataNonempty := hd, h := h, hPos := hh }
  else .error .degenerateInput

/-- The `rescale` whitening transform: per-dimension division by the standard
deviation vector. -/
noncomputable def rescaleTransform (D : ℕ) (sd : Fin D → ℝ) (v : Fin D → ℝ) :
    Fin D → ℝ := fun j => v j / sd j

/-- Inverse of the `rescale` whitening transform. -/
noncomputable def rescaleInverse (D : ℕ) (sd : Fin D → ℝ) (v : Fin D → ℝ) :
    Fin D → ℝ := fun j => v j * sd j

/-- The ZCA whitening matrix `V · diag(1/√λ) · Vᵀ` built from an
eigendecomposition `(V, λ)` of the covariance matrix. -/
noncomputable def zcaMatrix (D : ℕ) (V : Matrix (Fin D) (Fin D) ℝ)
    (lam : Fin D → ℝ) : Matrix (Fin D) (Fin D) ℝ :=
  V * Matrix.diagonal (fun i => (Real.sqrt (lam i))⁻¹) * V.transpose

/-- Inverse of the ZCA whitening matrix: `V · diag(√λ) · Vᵀ`. -/
noncomputable def zcaInverseMatrix (D : ℕ) (V : Matrix (Fin D) (Fin D) ℝ)
    (lam : Fin D → ℝ) : Matrix (Fin D) (Fin D) ℝ :=
  V * Matrix.diagonal (fun i => Real.sqrt (lam i)) * V.transpose

/-- Joint log-density of a Gaussian KDE with bandwidth `h` built on `data`
(in whitened space), evaluated at `u`; used by the cross-validation score. -/
noncomputable def rawLogDensity (h : ℝ) (D : ℕ) (data : List (List ℝ))
    (u : List ℝ) : ℝ :=
  Real.log (((data.length : ℝ))⁻¹ *
    (data.map (fun c =>
      ∏ j : Fin D, gaussK h (u.getD (j : ℕ) 0 - c.getD (j : ℕ) 0))).sum)

/-- Modelled from the spec: the K-fold cross-validated mean held-out
log-likelihood of a candidate bandwidth — for each fold, build the KDE on the
remaining folds' data and average the held-out fold's log-density; average
across folds. -/
noncomputable def cvScore (D : ℕ) (folds : List (List (List ℝ))) (bw : ℚ) : ℝ :=
  mean ((List.range folds.length).map (fun i =>
    mean ((folds.getD i []).map
      (rawLogDensity (bw : ℝ) D ((folds.take i ++ folds.drop (i + 1)).flatten)))))

/-- One comparison step of the bandwidth search: move to the candidate with
the strictly larger score, and on an exact score tie keep the smaller
bandwidth. -/
noncomputable def selStep (score : ℚ → ℝ) (best c : ℚ) : ℚ :=
  if score best < score c ∨ (score c = score best ∧ c < best) then c else best

/-- Modelled from the spec: selection among candidate bandwidths — keep the
candidate with strictly larger score, and on an exact score tie keep the
smaller bandwidth. -/
noncomputable def selectBandwidth (score : ℚ → ℝ) : List ℚ → Option ℚ
  | [] => none
  | b :: bs => some (bs.foldl (selStep score) b)

/-- Modelled from the spec: the optimized-bandwidth search — maximise the
cross-validated mean held-out log-likelihood over the candidate list,
breaking ties towards the smaller bandwidth. -/
noncomputable def optimizedBandwidth (D : ℕ) (folds : List (List (List ℝ)))
    (cands : List ℚ) : Option ℚ :=
  selectBandwidth (cvScore D folds) cands

/-- A concrete two-feature fitted estimator (features `x` and `y`, one stored
sample, unit bandwidth) used to evaluate the interface theorems on explicit
inputs. -/
noncomputable def kdeEx : KDE where
  features := ["x", "y"]
  data := [[0, 0]]
  dataNonempty := by simp
  h := 1
  hPos := by norm_num

end CondKDE

namespace Notebook

open CondKDE

/-- Reference definition: the exact log-density of the one-dimensional normal
distribution with mean `mu` and variance `sigsq`, evaluated at `x`. -/
noncomputable def normalLogPdf (mu sigsq x : ℝ) : ℝ :=
  -0.5 * Real.log (2 * Real.pi * sigsq) - 0.5 * (x - mu) ^ 2 / sigsq

/-- `log_gauss(x, mu, sigma)` of the MAF notebook: note the normalisation
term uses `sigma`, not `sigma²`. -/
noncomputable def log_gauss (x mu sigma : ℝ) : ℝ :=
  -0.5 * Real.log (2 * Real.pi * sigma) - 0.5 * (x - mu) ^ 2 / sigma ^ 2

/-- `analytic_log_likelihood(d, mu_0, sigma_0)` of the MAF notebook: the i-th
entry uses mean `(1,4,9,16,25)·mu_0[i]` and diagonal covariance
`(1,4,9,16,25)·sigma_0[i]²`, with the normalisation written through the log
of the product of the diagonal covariance entries. -/
noncomputable def analytic_log_likelihood {n : ℕ} (d : Fin 5 → ℝ)
    (mu_0 sigma_0 : Fin n → ℝ) : Fin n → ℝ := fun i =>
  (-2.5 * Real.log (2 * Real.pi) -
      0.5 * Real.log (∏ j : Fin 5, ((j : ℕ) + 1 : ℝ) ^ 2 * sigma_0 i ^ 2)) +
    (-0.5 * ∑ j : Fin 5,
      (d j - ((j : ℕ) + 1 : ℝ) ^ 2 * mu_0 i) ^ 2 /
        (((j : ℕ) + 1 : ℝ) ^ 2 * sigma_0 i ^ 2))

/-- `ultranest_analytic_posterior(p)` of the MAF notebook: per parameter row,
the sum of the analytic log-likelihood over the mock measurements plus the
prior term `log_gauss(0.0, p[:, 0], 1.0)`. -/
noncomputable def ultranest_analytic_posterior {n : ℕ}
    (mocks : List (Fin 5 → ℝ)) (p : Fin n → ℝ × ℝ) : Fin n → ℝ := fun i =>
  log_gauss 0 (p i).1 1 +
    (mocks.map (fun m =>
      analytic_log_likelihood m (fun j => (p j).1) (fun j => (p j).2) i)).sum

/-- `ultranest_NDE_posterior(p)` of the MAF notebook, with the trained flow's
`log_prob` supplied as the abstract function `ndeLogProb`. -/
noncomputable def ultranest_NDE_posterior {n : ℕ}
    (ndeLogProb : (Fin 5 → ℝ) → ℝ × ℝ → ℝ) (mocks : List (Fin 5 → ℝ))
    (p : Fin n → ℝ × ℝ) : Fin n → ℝ := fun i =>
  log_gauss 0 (p i).1 1 + (mocks.map (fun m => ndeLogProb m (p i))).sum

/-- `log_prior(y)` of the KDE notebook: `y` is an `(N, 1)` array, the result
is `(-y**2 / 4).flatten()`. -/
noncomputable def log_prior (y : List (List ℝ)) : List ℝ :=
  (y.map (fun r => r.map (fun t => -t ^ 2 / 4))).flatten

/-- `log_likelihood(y, x)` of the KDE notebook: stack `x` against the
flattened `y` column and score the rows conditionally on feature `"y"`. -/
noncomputable def log_likelihood (k : KDE) (y : List (List ℝ)) (x : ℝ) :
    Except KDEError (List ℝ) :=
  score_samples k (y.flatten.map (fun t => [x, t])) {"y"}

/-- `total_distribution(y)` of the KDE notebook: the unnormalised log-prior
plus the KDE conditional log-likelihood at its default `x = 1.0`. -/
noncomputable def total_distribution (k : KDE) (y : List (List ℝ)) :
    Except KDEError (List ℝ) :=
  (log_likelihood k y 1).map (fun ll =>
    List.zipWith (fun a b => a + b) (log_prior y) ll)

end Notebook

namespace CondKDE

lemma sum_map_div {α : Type} (l : List α) (f : α → ℝ) (W : ℝ) :
    (l.map (fun c => f c / W)).sum = (l.map f).sum / W := by
  induction l with
  | nil => simp
  | cons a t ih => simp [ih, add_div]

lemma kprod_split (k : KDE) (S : Finset (Fin k.features.length)) (c u : List ℝ) :
    kprod k S c u * kprod k Sᶜ c u = kprod k Finset.univ c u := by
  unfold kprod
  exact Finset.prod_mul_prod_compl S _

lemma data_length_ne_zero (k : KDE) : ((k.data.length : ℝ)) ≠ 0 := by
  have : k.data.length ≠ 0 := by
    intro h
    exact k.dataNonempty (List.length_eq_zero.mp h)
  exact_mod_cast this

/-- The reweighting form of the conditional score equals the log of the ratio
of the joint mixture density to the marginal mixture density on the
conditioning axes. -/
lemma scoreOne_eq (k : KDE) (S : Finset (Fin k.features.length)) (u : List ℝ) :
    scoreOne k S u =
      Real.log (jointDensity k u / marginalDensity k S u) := by
  unfold scoreOne jointDensity marginalDensity
  have h1 : (k.data.map (fun c =>
      kprod k S c u / (k.data.map (fun c => kprod k S c u)).sum *
        kprod k Sᶜ c u)).sum =
      (k.data.map (fun c => kprod k Finset.univ c u)).sum /
        (k.data.map (fun c => kprod k S c u)).sum := by
    have h2 : (fun c =>
        kprod k S c u / (k.data.map (fun c => kprod k S c u)).sum *
          kprod k Sᶜ c u) =
        (fun c => kprod k Finset.univ c u /
          (k.data.map (fun c => kprod k S c u)).sum) := by
      funext c
      rw [div_mul_eq_mul_div, kprod_split]
    rw [h2, sum_map_div]
  rw [h1, mul_div_mul_left _ _ (inv_ne_zero (data_length_ne_zero k))]

/-- **C1.** For a fitted estimator and any query matrix of shape `(M, D)`
together with a proper subset of the feature set as conditioning features,
`score_samples` succeeds and returns exactly `M` values, whose `i`-th entry
is the natural log of the conditional density — the joint
Gaussian-kernel-mixture density of row `i` divided by the marginal mixture
density of the conditioning axes at row `i`. -/
theorem score_samples_conditional_log_density (k : KDE)
    (points : List (List ℝ)) (cond : Finset String)
    (hc : cond ⊂ k.features.toFinset)
    (hshape : ∀ r ∈ points, r.length = k.features.length) :
    ∃ res, score_samples k points cond = Except.ok res ∧
      res.length = points.length ∧
      ∀ i < points.length, res.getD i 0 =
        Real.log (jointDensity k (points.getD i []) /
          marginalDensity k (condIdx k cond) (points.getD i [])) := by
  refine ⟨points.map (scoreOne k (condIdx k cond)), ?_, by simp, ?_⟩
  · have h1 : ¬ ¬ cond ⊂ k.features.toFinset := not_not_intro hc
    have h2 : ¬ ∃ r ∈ points, r.length ≠ k.features.length := by
      push_neg
      exact hshape
    rw [score_samples, if_neg h1, if_neg h2]
  · intro i hi
    have hi' : i < (points.map (scoreOne k (condIdx k cond))).length := by
      simpa using hi
    rw [List.getD_eq_getElem _ _ hi', List.getElem_map, scoreOne_eq,
      List.getD_eq_getElem _ _ hi]

/-- **C1 witness.** Evaluation of the `score_samples` contract on the
concrete estimator `kdeEx` with one query row and conditioning on `y`. -/
theorem score_samples_conditional_log_density_witness :
    (({"y"} : Finset String) ⊂ kdeEx.features.toFinset ∧
      ∀ r ∈ ([[1, 2]] : List (List ℝ)), r.length = kdeEx.features.length) ∧
    ∃ res, score_samples kdeEx [[1, 2]] {"y"} = Except.ok res ∧
      res.length = ([[1, 2]] : List (List ℝ)).length ∧
      ∀ i < ([[1, 2]] : List (List ℝ)).length, res.getD i 0 =
        Real.log (jointDensity kdeEx (([[1, 2]] : List (List ℝ)).getD i []) /
          marginalDensity kdeEx (condIdx kdeEx {"y"})
            (([[1, 2]] : List (List ℝ)).getD i [])) := by
  have hc : ({"y"} : Finset String) ⊂ kdeEx.features.toFinset := by
    simp [kdeEx, Finset.ssubset_iff_subset_ne]
    decide
  have hs : ∀ r ∈ ([[1, 2]] : List (List ℝ)), r.length = kdeEx.features.length := by
    intro r hr
    simp at hr
    subst hr
    rfl
  exact ⟨⟨hc, hs⟩,
    score_samples_conditional_log_density kdeEx [[1, 2]] {"y"} hc hs⟩

/-- **C4.** Any `score_samples` or `sample` query whose conditioning feature
names are not a proper subset of the fitted feature set raises
`InvalidConditioningError`; in particular conditioning on the entire fitted
feature set does. -/
theorem invalid_conditioning_rejected (k : KDE) (points : List (List ℝ))
    (cond : Finset String) (condL : List (String × ℝ)) (n : ℕ) (kd : Bool)
    (u : ℕ → ℝ) (g : ℕ → ℕ → ℝ) :
    (¬ cond ⊂ k.features.toFinset →
      score_samples k points cond = Except.error KDEError.invalidConditioning) ∧
    (¬ (condL.map Prod.fst).toFinset ⊂ k.features.toFinset →
      sample k condL n kd u g = Except.error KDEError.invalidConditioning) ∧
    score_samples k points k.features.toFinset =
      Except.error KDEError.invalidConditioning := by
  refine ⟨fun h => ?_, fun h => ?_, ?_⟩
  · rw [score_samples, if_pos h]
  · rw [sample, if_pos h]
  · rw [score_samples, if_pos (fun h => (ssubset_irrefl _) h)]

/-- **C4 witness.** Conditioning `kdeEx` on its full feature set is rejected
by both query operations. -/
theorem invalid_conditioning_rejected_witness :
    (¬ ({"x", "y"} : Finset String) ⊂ kdeEx.features.toFinset) ∧
    score_samples kdeEx [] {"x", "y"} =
      Except.error KDEError.invalidConditioning ∧
    sample kdeEx [("x", 0), ("y", 0)] 1 true (fun _ => 0) (fun _ _ => 0) =
      Except.error KDEError.invalidConditioning := by
  have h : ¬ ({"x", "y"} : Finset String) ⊂ kdeEx.features.toFinset := by
    decide
  have h2 : ¬ ((([("x", (0 : ℝ)), ("y", 0)]).map Prod.fst).toFinset ⊂
      kdeEx.features.toFinset) := by
    decide
  exact ⟨h,
    (invalid_conditioning_rejected kdeEx [] {"x", "y"} [] 0 true
      (fun _ => 0) (fun _ _ => 0)).1 h,
    (invalid_conditioning_rejected kdeEx [] {"x", "y"}
      [("x", 0), ("y", 0)] 1 true (fun _ => 0) (fun _ _ => 0)).2.1 h2⟩

/-- **C6.** Query calls never mutate the fitted state: executing any sequence
of `score_samples`/`sample` queries leaves the estimator unchanged, and every
query's result equals its evaluation against the initial fitted state —
results are independent of the order and number of preceding queries. -/
theorem queries_leave_fitted_state_unchanged (k : KDE) (qs : List Query) :
    (runQueries k qs).2 = k ∧
    (runQueries k qs).1 = qs.map (fun q => (runQuery k q).1) := by
  induction qs with
  | nil => simp [runQueries]
  | cons q qs ih =>
    have hk : (runQuery k q).2 = k := by cases q <;> rfl
    rw [runQueries, hk]
    exact ⟨ih.1, by rw [ih.2, List.map_cons]⟩

/-- **C7.** For a fitted estimator with `D` features and a valid conditioning
set, a query matrix containing a row whose column count differs from `D` is
rejected with `ShapeMismatchError` (no partial result is produced). -/
theorem shape_mismatch_rejected (k : KDE) (points : List (List ℝ))
    (cond : Finset String) (hc : cond ⊂ k.features.toFinset)
    (hbad : ∃ r ∈ points, r.length ≠ k.features.length) :
    score_samples k points cond = Except.error KDEError.shapeMismatch := by
  rw [score_samples, if_neg (not_not_intro hc), if_pos hbad]

/-- **C7 witness.** A one-column query row against the two-feature `kdeEx` is
rejected. -/
theorem shape_mismatch_rejected_witness :
    (({"y"} : Finset String) ⊂ kdeEx.features.toFinset ∧
      ∃ r ∈ ([[1]] : List (List ℝ)), r.length ≠ kdeEx.features.length) ∧
    score_samples kdeEx [[1]] {"y"} = Except.error KDEError.shapeMismatch := by
  have hc : ({"y"} : Finset String) ⊂ kdeEx.features.toFinset := by decide
  have hbad : ∃ r ∈ ([[1]] : List (List ℝ)), r.length ≠ kdeEx.features.length := by
    refine ⟨[1], by simp, by simp [kdeEx]⟩
  exact ⟨⟨hc, hbad⟩, shape_mismatch_rejected kdeEx [[1]] {"y"} hc hbad⟩

lemma variance_nonneg (l : List ℝ) : 0 ≤ variance l := by
  unfold variance mean
  apply div_nonneg _ (Nat.cast_nonneg _)
  apply List.sum_nonneg
  intro x hx
  simp only [List.mem_map] at hx
  obtain ⟨a, _, ha⟩ := hx
  simpa [← ha] using sq_nonneg (a - mean l)

lemma stdVec_ne_zero (samples : List (List ℝ)) (j : ℕ)
    (h : variance (column j samples) ≠ 0) : stdVec samples j ≠ 0 := by
  unfold stdVec
  rw [Ne, Real.sqrt_eq_zero (variance_nonneg _)]
  exact h

lemma range_map_getD (r : List ℝ) (D : ℕ) (hr : r.length = D) :
    (List.range D).map (fun j => r.getD j 0) = r := by
  apply List.ext_getElem
  · simp [hr]
  · intro i h1 h2
    simp only [List.getElem_map, List.getElem_range]
    rw [List.getD_eq_getElem]

/-- The ZCA inverse matrix is a left inverse of the ZCA whitening matrix when
the eigendecomposition is orthogonal with positive eigenvalues. -/
lemma zca_left_inverse (D : ℕ) (V : Matrix (Fin D) (Fin D) ℝ)
    (lam : Fin D → ℝ) (hV : V * V.transpose = 1) (hVt : V.transpose * V = 1)
    (hlam : ∀ i, 0 < lam i) :
    zcaInverseMatrix D V lam * zcaMatrix D V lam = 1 := by
  unfold zcaInverseMatrix zcaMatrix
  have hdiag : Matrix.diagonal (fun i => Real.sqrt (lam i)) *
      Matrix.diagonal (fun i => (Real.sqrt (lam i))⁻¹) =
      (1 : Matrix (Fin D) (Fin D) ℝ) := by
    rw [Matrix.diagonal_mul_diagonal]
    have : (fun i => Real.sqrt (lam i) * (Real.sqrt (lam i))⁻¹) =
        fun _ => (1 : ℝ) := by
      funext i
      exact mul_inv_cancel₀ (ne_of_gt (Real.sqrt_pos.mpr (hlam i)))
    rw [this, Matrix.diagonal_one]
  calc V * Matrix.diagonal (fun i => Real.sqrt (lam i)) * V.transpose *
        (V * Matrix.diagonal (fun i => (Real.sqrt (lam i))⁻¹) * V.transpose)
      = V * (Matrix.diagonal (fun i => Real.sqrt (lam i)) *
          ((V.transpose * V) *
            Matrix.diagonal (fun i => (Real.sqrt (lam i))⁻¹))) * V.transpose := by
        simp only [Matrix.mul_assoc]
    _ = 1 := by rw [hVt, one_mul, hdiag, mul_one, hV]

/-- **C2.** Whitening round trip: for each whitening algorithm the transform
computed at fit time composed with its inverse reproduces the original
coordinates — exactly in the real-number model, hence within the claimed
`1e-8` relative tolerance.  `identity` and `rescale` are stated on the
fit-time row transforms (`rescale` under the fit-success condition of
nonzero per-dimension variance); `zca` is stated on the whitening matrix
built from an orthogonal eigendecomposition with the positive eigenvalues
that fit-success guarantees. -/
theorem whitening_round_trip (D : ℕ) (feats : List String)
    (samples : List (List ℝ)) (r : List ℝ) (V : Matrix (Fin D) (Fin D) ℝ)
    (lam : Fin D → ℝ) (v : Fin D → ℝ)
    (hr : r.length = feats.length)
    (hres : ∀ j, j < feats.length → variance (column j samples) ≠ 0)
    (hV : V * V.transpose = 1) (hVt : V.transpose * V = 1)
    (hlam : ∀ i, 0 < lam i) :
    (rowUnwhiten WhiteningAlg.identity feats samples
        (rowWhiten WhiteningAlg.identity feats samples r) = r) ∧
    (rowUnwhiten WhiteningAlg.rescale feats samples
        (rowWhiten WhiteningAlg.rescale feats samples r) = r ∧
      ∀ i, i < feats.length →
        |(rowUnwhiten WhiteningAlg.rescale feats samples
            (rowWhiten WhiteningAlg.rescale feats samples r)).getD i 0 -
          r.getD i 0| ≤ 1 / 10 ^ 8 * |r.getD i 0|) ∧
    ((zcaInverseMatrix D V lam).mulVec ((zcaMatrix D V lam).mulVec v) = v ∧
      ∀ j, |(zcaInverseMatrix D V lam).mulVec
          ((zcaMatrix D V lam).mulVec v) j - v j| ≤ 1 / 10 ^ 8 * |v j|) := by
  have hrescale : rowUnwhiten WhiteningAlg.rescale feats samples
      (rowWhiten WhiteningAlg.rescale feats samples r) = r := by
    unfold rowUnwhiten rowWhiten
    have hmap : ∀ j, j < feats.length →
        (((List.range feats.length).map
          (fun j => r.getD j 0 / stdVec samples j)).getD j 0) =
          r.getD j 0 / stdVec samples j := by
      intro j hj
      have hj' : j < ((List.range feats.length).map
          (fun j => r.getD j 0 / stdVec samples j)).length := by simpa using hj
      rw [List.getD_eq_getElem _ _ hj', List.getElem_map, List.getElem_range]
    have : ((List.range feats.length).map (fun j =>
        (((List.range feats.length).map
          (fun j => r.getD j 0 / stdVec samples j)).getD j 0) *
            stdVec samples j)) =
        (List.range feats.length).map (fun j => r.getD j 0) := by
      apply List.ext_getElem
      · simp
      · intro i h1 h2
        simp only [List.getElem_map, List.getElem_range]
        rw [hmap i (by simpa using h1),
          div_mul_cancel₀ _ (stdVec_ne_zero samples i
            (hres i (by simpa using h1)))]
    rw [this, range_map_getD r feats.length hr]
  have hzca : (zcaInverseMatrix D V lam).mulVec
      ((zcaMatrix D V lam).mulVec v) = v := by
    rw [Matrix.mulVec_mulVec, zca_left_inverse D V lam hV hVt hlam,
      Matrix.one_mulVec]
  refine ⟨rfl, ⟨hrescale, ?_⟩, ⟨hzca, ?_⟩⟩
  · intro i _
    rw [hrescale, sub_self, abs_zero]
    positivity
  · intro j
    rw [hzca, sub_self, abs_zero]
    positivity

/-- **C2 witness.** Round trips evaluated on a concrete one-dimensional
sample matrix with nonzero variance, the identity orthogonal matrix and unit
eigenvalues. -/
theorem whitening_round_trip_witness :
    (([(5 : ℝ)] : List ℝ).length = (["x"] : List String).length ∧
      (∀ j, j < (["x"] : List String).length →
        variance (column j [[0], [2]]) ≠ 0) ∧
      ((1 : Matrix (Fin 1) (Fin 1) ℝ) * (1 : Matrix (Fin 1) (Fin 1) ℝ).transpose = 1) ∧
      (∀ _i : Fin 1, (0 : ℝ) < 1)) ∧
    (rowUnwhiten WhiteningAlg.rescale ["x"] [[0], [2]]
        (rowWhiten WhiteningAlg.rescale ["x"] [[0], [2]] [(5 : ℝ)]) = [(5 : ℝ)]) ∧
    ((zcaInverseMatrix 1 1 (fun _ => 1)).mulVec
        ((zcaMatrix 1 1 (fun _ => 1)).mulVec (fun _ => (5 : ℝ))) =
      fun _ => (5 : ℝ)) := by
  have hres : ∀ j, j < (["x"] : List String).length →
      variance (column j [[0], [2]]) ≠ 0 := by
    intro j hj
    simp only [List.length_singleton] at hj
    interval_cases j
    have hmean : mean [(0 : ℝ), 2] = 1 := by
      norm_num [mean]
    norm_num [variance, column, hmean, mean]
  have hV : (1 : Matrix (Fin 1) (Fin 1) ℝ) *
      (1 : Matrix (Fin 1) (Fin 1) ℝ).transpose = 1 := by
    rw [Matrix.transpose_one, one_mul]
  have hVt : (1 : Matrix (Fin 1) (Fin 1) ℝ).transpose *
      (1 : Matrix (Fin 1) (Fin 1) ℝ) = 1 := by
    rw [Matrix.transpose_one, one_mul]
  have h := whitening_round_trip 1 ["x"] [[0], [2]] [(5 : ℝ)] 1 (fun _ => 1)
    (fun _ => (5 : ℝ)) (by simp) hres hV hVt (fun _ => one_pos)
  exact ⟨⟨by simp, hres, hV, fun _ => one_pos⟩, h.2.1.1, h.2.2.1⟩

lemma list_sum_const (l : List ℝ) (c : ℝ) (h : ∀ x ∈ l, x = c) :
    l.sum = c * l.length := by
  induction l with
  | nil => simp
  | cons a t ih =>
    have ha : a = c := h a (by simp)
    have ht : t.sum = c * t.length := ih (fun x hx => h x (by simp [hx]))
    simp [ha, ht]
    ring

lemma mean_const (l : List ℝ) (c : ℝ) (hne : l ≠ []) (h : ∀ x ∈ l, x = c) :
    mean l = c := by
  have hlen : (l.length : ℝ) ≠ 0 := by
    have : l.length ≠ 0 := fun h0 => hne (List.length_eq_zero.mp h0)
    exact_mod_cast this
  rw [mean, list_sum_const l c h, mul_div_assoc, div_self hlen, mul_one]

lemma variance_const (l : List ℝ) (c : ℝ) (hne : l ≠ []) (h : ∀ x ∈ l, x = c) :
    variance l = 0 := by
  rw [variance, mean, List.sum_eq_zero, zero_div]
  intro x hx
  simp only [List.mem_map] at hx
  obtain ⟨a, ha, rfl⟩ := hx
  rw [h a ha, mean_const l c hne h]
  ring

lemma column_const (samples : List (List ℝ)) (j : ℕ) (c : ℝ)
    (h : ∀ r ∈ samples, r.getD j 0 = c) :
    ∀ x ∈ column j samples, x = c := by
  intro x hx
  simp only [column, List.mem_map] at hx
  obtain ⟨r, hr, rfl⟩ := hx
  exact h r hr

lemma covMatrix_row_zero (D : ℕ) (samples : List (List ℝ)) (j : Fin D) (c : ℝ)
    (hne : samples ≠ []) (h : ∀ r ∈ samples, r.getD (j : ℕ) 0 = c) :
    ∀ kk, covMatrix D samples j kk = 0 := by
  intro kk
  rw [covMatrix, mean, List.sum_eq_zero, zero_div]
  intro x hx
  simp only [List.mem_map] at hx
  obtain ⟨r, hr, rfl⟩ := hx
  rw [h r hr, mean_const (column (j : ℕ) samples) c
    (by simpa [column] using hne) (column_const samples (j : ℕ) c h)]
  ring

/-- **C3.** `fit` raises `DegenerateInputError` whenever whitening would have
to invert a singular or zero-variance quantity: under `rescale` for every
sample matrix in which some dimension has zero empirical variance, and under
`zca` for every sample matrix whose empirical covariance matrix is singular;
in particular, a nonempty sample matrix whose rows all agree in dimension `j`
is rejected by both `rescale` and `zca` whitening. -/
theorem fit_degenerate_input (feats : List String) (bw : ℝ) :
    (∀ samples : List (List ℝ),
      (∃ i : Fin feats.length, variance (column (i : ℕ) samples) = 0) →
      fit WhiteningAlg.rescale feats samples bw =
        Except.error KDEError.degenerateInput) ∧
    (∀ samples : List (List ℝ),
      (covMatrix feats.length samples).det = 0 →
      fit WhiteningAlg.zca feats samples bw =
        Except.error KDEError.degenerateInput) ∧
    (∀ (samples : List (List ℝ)) (j : Fin feats.length) (c : ℝ),
      samples ≠ [] → (∀ r ∈ samples, r.getD (j : ℕ) 0 = c) →
      fit WhiteningAlg.rescale feats samples bw =
          Except.error KDEError.degenerateInput ∧
        fit WhiteningAlg.zca feats samples bw =
          Except.error KDEError.degenerateInput) := by
  refine ⟨fun samples h => ?_, fun samples h => ?_,
    fun samples j c hne hconst => ⟨?_, ?_⟩⟩
  · rw [fit, if_pos (show degenerate WhiteningAlg.rescale feats samples from h)]
  · rw [fit, if_pos (show degenerate WhiteningAlg.zca feats samples from h)]
  · rw [fit, if_pos]
    exact ⟨j, variance_const _ c (by simpa [column] using hne)
      (column_const samples (j : ℕ) c hconst)⟩
  · rw [fit, if_pos]
    exact Matrix.det_eq_zero_of_row_eq_zero j
      (covMatrix_row_zero feats.length samples j c hne hconst)

/-- **C3 witness.** Collinear samples `[[0,0],[1,1]]` (singular covariance
but no constant dimension) are rejected by `zca` whitening; samples
`[[1,2],[1,3]]`, identical in their first dimension, are rejected by both
`rescale` (zero variance) and `zca` whitening. -/
theorem fit_degenerate_input_witness :
    ((covMatrix (["a", "b"] : List String).length [[(0 : ℝ), 0], [1, 1]]).det = 0 ∧
      fit WhiteningAlg.zca ["a", "b"] [[0, 0], [1, 1]] 1 =
        Except.error KDEError.degenerateInput) ∧
    ((∃ i : Fin (["a", "b"] : List String).length,
        variance (column (i : ℕ) [[(1 : ℝ), 2], [1, 3]]) = 0) ∧
      fit WhiteningAlg.rescale ["a", "b"] [[1, 2], [1, 3]] 1 =
        Except.error KDEError.degenerateInput) ∧
    (([[1, 2], [1, 3]] : List (List ℝ)) ≠ [] ∧
      (∀ r ∈ ([[1, 2], [1, 3]] : List (List ℝ)), r.getD 0 0 = (1 : ℝ)) ∧
      fit WhiteningAlg.rescale ["a", "b"] [[1, 2], [1, 3]] 1 =
          Except.error KDEError.degenerateInput ∧
        fit WhiteningAlg.zca ["a", "b"] [[1, 2], [1, 3]] 1 =
          Except.error KDEError.degenerateInput) := by
  have hentry : ∀ j k : Fin 2,
      covMatrix 2 [[(0 : ℝ), 0], [1, 1]] j k = 1 / 4 := by
    intro j k
    fin_cases j <;> fin_cases k <;>
      norm_num [covMatrix, column, mean]
  have hdet : (covMatrix (["a", "b"] : List String).length
      [[(0 : ℝ), 0], [1, 1]]).det = 0 := by
    show (covMatrix 2 [[(0 : ℝ), 0], [1, 1]]).det = 0
    rw [Matrix.det_fin_two, hentry 0 0, hentry 1 1, hentry 0 1, hentry 1 0]
    norm_num
  have hvar : ∃ i : Fin (["a", "b"] : List String).length,
      variance (column (i : ℕ) [[(1 : ℝ), 2], [1, 3]]) = 0 := by
    refine ⟨⟨0, by norm_num⟩, ?_⟩
    have hmean : mean [(1 : ℝ), 1] = 1 := by norm_num [mean]
    norm_num [variance, column, hmean, mean]
  have hconst : ∀ r ∈ ([[1, 2], [1, 3]] : List (List ℝ)), r.getD 0 0 = (1 : ℝ) := by
    intro r hr
    simp only [List.mem_cons, List.not_mem_nil, or_false] at hr
    rcases hr with rfl | rfl <;> rfl
  have h := fit_degenerate_input ["a", "b"] 1
  exact ⟨⟨hdet, h.2.1 [[0, 0], [1, 1]] hdet⟩,
    ⟨hvar, h.1 [[1, 2], [1, 3]] hvar⟩,
    ⟨by simp, hconst,
      h.2.2 [[1, 2], [1, 3]] ⟨0, by norm_num⟩ 1 (by simp) hconst⟩⟩

lemma selStep_mem (score : ℚ → ℝ) (b c : ℚ) :
    selStep score b c = b ∨ selStep score b c = c := by
  unfold selStep
  split
  · exact Or.inr rfl
  · exact Or.inl rfl

lemma foldl_selStep_spec (score : ℚ → ℝ) :
    ∀ (bs : List ℚ) (b : ℚ),
      bs.foldl (selStep score) b ∈ b :: bs ∧
      ∀ x ∈ b :: bs, score x ≤ score (bs.foldl (selStep score) b) ∧
        (score x = score (bs.foldl (selStep score) b) →
          bs.foldl (selStep score) b ≤ x) := by
  intro bs
  induction bs with
  | nil =>
    intro b
    refine ⟨by simp, ?_⟩
    intro x hx
    simp only [List.foldl_nil, List.mem_singleton] at hx ⊢
    subst hx
    exact ⟨le_refl _, fun _ => le_refl _⟩
  | cons c bs ih =>
    intro b
    rw [List.foldl_cons]
    obtain ⟨ihmem, ihdom⟩ := ih (selStep score b c)
    have hr : bs.foldl (selStep score) (selStep score b c) ∈ b :: c :: bs := by
      rcases List.mem_cons.mp ihmem with h | h
      · rcases selStep_mem score b c with hb | hc
        · rw [h, hb]; simp
        · rw [h, hc]; simp
      · simp [h]
    refine ⟨hr, ?_⟩
    have hhead := ihdom (selStep score b c) (by simp)
    intro x hx
    rcases List.mem_cons.mp hx with hxb | hx2
    · rw [hxb]
      by_cases hcond : score b < score c ∨ (score c = score b ∧ c < b)
      · have hstep : selStep score b c = c := by rw [selStep, if_pos hcond]
        rw [hstep] at hhead ⊢
        rcases hcond with hlt | ⟨heq, hcb⟩
        · refine ⟨le_trans (le_of_lt hlt) hhead.1, ?_⟩
          intro hbe
          exact absurd (lt_of_lt_of_le hlt hhead.1)
            (by rw [hbe]; exact lt_irrefl _)
        · refine ⟨heq ▸ hhead.1, ?_⟩
          intro hbe
          exact le_of_lt (lt_of_le_of_lt (hhead.2 (heq.trans hbe)) hcb)
      · have hstep : selStep score b c = b := by rw [selStep, if_neg hcond]
        rw [hstep] at hhead ⊢
        exact hhead
    rcases List.mem_cons.mp hx2 with hxc | hx3
    · rw [hxc]
      by_cases hcond : score b < score c ∨ (score c = score b ∧ c < b)
      · have hstep : selStep score b c = c := by rw [selStep, if_pos hcond]
        rw [hstep] at hhead ⊢
        exact hhead
      · have hstep : selStep score b c = b := by rw [selStep, if_neg hcond]
        rw [hstep] at hhead ⊢
        push_neg at hcond
        refine ⟨le_trans hcond.1 hhead.1, ?_⟩
        intro hce
        have hbc' : score b ≤ score c := by
          rw [hce]
          exact hhead.1
        have hcb : score c = score b := le_antisymm hcond.1 hbc'
        have hbc : b ≤ c := hcond.2 hcb
        have hrb : bs.foldl (selStep score) b ≤ b :=
          hhead.2 (hcb.symm.trans hce)
        exact le_trans hrb hbc
    · exact ihdom x (by simp [hx3])

/-- **C5.** When the `optimized` bandwidth search returns a bandwidth, that
bandwidth attains the maximal cross-validated mean held-out log-likelihood
among the candidates, and whenever another candidate ties the maximal score,
the returned bandwidth is at most that candidate — the smallest of the tied
bandwidths is selected. -/
theorem optimized_bandwidth_tie_break (D : ℕ)
    (folds : List (List (List ℝ))) (cands : List ℚ) (r : ℚ)
    (hr : optimizedBandwidth D folds cands = some r) :
    r ∈ cands ∧ ∀ b ∈ cands,
      cvScore D folds b ≤ cvScore D folds r ∧
        (cvScore D folds b = cvScore D folds r → r ≤ b) := by
  cases cands with
  | nil => exact absurd hr (by rw [optimizedBandwidth, selectBandwidth]; simp)
  | cons b bs =>
    have hr' : bs.foldl (selStep (cvScore D folds)) b = r := by
      have : optimizedBandwidth D folds (b :: bs) =
          some (bs.foldl (selStep (cvScore D folds)) b) := rfl
      rw [this] at hr
      exact Option.some_injective _ hr
    obtain ⟨hmem, hdom⟩ := foldl_selStep_spec (cvScore D folds) bs b
    rw [hr'] at hmem hdom
    exact ⟨hmem, hdom⟩

/-- **C5 witness.** With no folds every candidate's cross-validation score is
`0`, so the candidates `2` and `1` tie; the search returns the smaller
bandwidth `1`. -/
theorem optimized_bandwidth_tie_break_witness :
    optimizedBandwidth 1 [] [2, 1] = some 1 ∧
    cvScore 1 [] 2 = cvScore 1 [] 1 ∧
    ((1 : ℚ) ∈ ([2, 1] : List ℚ) ∧ ∀ b ∈ ([2, 1] : List ℚ),
      cvScore 1 [] b ≤ cvScore 1 [] 1 ∧
        (cvScore 1 [] b = cvScore 1 [] 1 → (1 : ℚ) ≤ b)) := by
  have hs : ∀ b : ℚ, cvScore 1 [] b = 0 := by
    intro b
    simp [cvScore, mean]
  have hsel : optimizedBandwidth 1 [] [2, 1] = some 1 := by
    have hstep : selStep (cvScore 1 []) 2 1 = 1 := by
      rw [selStep, if_pos (Or.inr ⟨by rw [hs, hs], by norm_num⟩)]
    show some ([(1 : ℚ)].foldl (selStep (cvScore 1 [])) 2) = some 1
    rw [List.foldl_cons, List.foldl_nil, hstep]
  exact ⟨hsel, by rw [hs, hs],
    optimized_bandwidth_tie_break 1 [] [2, 1] 1 hsel⟩

end CondKDE

namespace Notebook

open CondKDE

/-- **C8.** For any data vector `d` and equal-length parameter vectors with
`sigma_0[i] ≠ 0`, the `i`-th entry of `analytic_log_likelihood` is exactly
the log-density of the 5-dimensional Gaussian with mean `(1,4,9,16,25)·mu_0[i]`
and diagonal covariance `(1,4,9,16,25)·sigma_0[i]²`:
`−(5/2)·log(2π) − (1/2)·Σ log(k²σ²) − (1/2)·Σ (d_k − k²μ)²/(k²σ²)`. -/
theorem analytic_log_likelihood_closed_form {n : ℕ} (d : Fin 5 → ℝ)
    (mu_0 sigma_0 : Fin n → ℝ) (i : Fin n) (hs : sigma_0 i ≠ 0) :
    analytic_log_likelihood d mu_0 sigma_0 i =
      -(5 / 2) * Real.log (2 * Real.pi) -
        1 / 2 * (∑ j : Fin 5, Real.log (((j : ℕ) + 1 : ℝ) ^ 2 * sigma_0 i ^ 2)) -
        1 / 2 * ∑ j : Fin 5,
          (d j - ((j : ℕ) + 1 : ℝ) ^ 2 * mu_0 i) ^ 2 /
            (((j : ℕ) + 1 : ℝ) ^ 2 * sigma_0 i ^ 2) := by
  unfold analytic_log_likelihood
  rw [Real.log_prod]
  · ring
  · intro j _
    have h1 : ((j : ℕ) + 1 : ℝ) ≠ 0 := by positivity
    exact mul_ne_zero (pow_ne_zero 2 h1) (pow_ne_zero 2 hs)

/-- **C8 witness.** The closed form evaluated at `d = 0`, `mu_0 = sigma_0 = 1`. -/
theorem analytic_log_likelihood_closed_form_witness :
    ((1 : ℝ) ≠ 0) ∧
    analytic_log_likelihood (fun _ => 0) (fun _ : Fin 1 => 1) (fun _ => 1) 0 =
      -(5 / 2) * Real.log (2 * Real.pi) -
        1 / 2 * (∑ j : Fin 5, Real.log (((j : ℕ) + 1 : ℝ) ^ 2 * (1 : ℝ) ^ 2)) -
        1 / 2 * ∑ j : Fin 5,
          ((0 : ℝ) - ((j : ℕ) + 1 : ℝ) ^ 2 * 1) ^ 2 /
            (((j : ℕ) + 1 : ℝ) ^ 2 * (1 : ℝ) ^ 2) := by
  exact ⟨by norm_num,
    analytic_log_likelihood_closed_form (fun _ => 0) (fun _ : Fin 1 => 1)
      (fun _ => 1) 0 (by norm_num)⟩

lemma log_prior_flat (y : List (List ℝ)) (hy : ∀ r ∈ y, r.length = 1) :
    log_prior y = y.map (fun r => -(r.getD 0 0) ^ 2 / 4) := by
  induction y with
  | nil => simp [log_prior]
  | cons r ys ih =>
    obtain ⟨a, rfl⟩ := List.length_eq_one.mp (hy r (by simp))
    have hys := ih (fun s hs => hy s (by simp [hs]))
    rw [log_prior] at hys
    rw [log_prior]
    simp only [List.map_cons, List.map_nil, List.flatten_cons,
      List.singleton_append, List.getD_cons_zero]
    rw [hys]

/-- **C9.** On an `(N, 1)` input, `log_prior` returns the flat length-`N`
array with entries `−y_i²/4`; each entry equals the log-density of the normal
prior `N(0, σ² = 2)` only up to the omitted additive normalisation constant
`−(1/2)·log(4π)` (which is nonzero); and `total_distribution` adds this
unnormalised prior elementwise to the KDE conditional log-likelihood
evaluated at `x = 1.0`. -/
theorem log_prior_unnormalized_and_total (k : KDE) (y : List (List ℝ))
    (ll : List ℝ) (t : ℝ) (hy : ∀ r ∈ y, r.length = 1)
    (hll : log_likelihood k y 1 = Except.ok ll) :
    log_prior y = y.map (fun r => -(r.getD 0 0) ^ 2 / 4) ∧
    (log_prior y).length = y.length ∧
    -t ^ 2 / 4 = normalLogPdf 0 2 t + 1 / 2 * Real.log (4 * Real.pi) ∧
    1 / 2 * Real.log (4 * Real.pi) ≠ 0 ∧
    total_distribution k y =
      Except.ok (List.zipWith (fun a b => a + b) (log_prior y) ll) := by
  refine ⟨log_prior_flat y hy, ?_, ?_, ?_, ?_⟩
  · rw [log_prior_flat y hy, List.length_map]
  · rw [normalLogPdf]
    have h2 : 2 * Real.pi * 2 = 4 * Real.pi := by ring
    rw [h2]
    ring
  · have hπ : (1 : ℝ) < 4 * Real.pi := by
      have h3 := Real.pi_gt_three
      linarith
    exact ne_of_gt (mul_pos (by norm_num) (Real.log_pos hπ))
  · rw [total_distribution, hll]
    rfl

/-- **C9 witness.** The prior/total decomposition evaluated with the concrete
estimator `kdeEx` at `y = [[0]]`, `t = 0`. -/
theorem log_prior_unnormalized_and_total_witness :
    ((∀ r ∈ ([[(0 : ℝ)]] : List (List ℝ)), r.length = 1) ∧
      log_likelihood kdeEx [[0]] 1 =
        Except.ok [scoreOne kdeEx (condIdx kdeEx {"y"}) [1, 0]]) ∧
    (log_prior [[(0 : ℝ)]] =
        ([[(0 : ℝ)]] : List (List ℝ)).map (fun r => -(r.getD 0 0) ^ 2 / 4) ∧
      (log_prior [[(0 : ℝ)]]).length = ([[(0 : ℝ)]] : List (List ℝ)).length ∧
      -(0 : ℝ) ^ 2 / 4 = normalLogPdf 0 2 0 + 1 / 2 * Real.log (4 * Real.pi) ∧
      1 / 2 * Real.log (4 * Real.pi) ≠ 0 ∧
      total_distribution kdeEx [[0]] =
        Except.ok (List.zipWith (fun a b => a + b) (log_prior [[(0 : ℝ)]])
          [scoreOne kdeEx (condIdx kdeEx {"y"}) [1, 0]])) := by
  have hy : ∀ r ∈ ([[(0 : ℝ)]] : List (List ℝ)), r.length = 1 := by
    intro r hr
    simp only [List.mem_singleton] at hr
    subst hr
    rfl
  have hc : ¬ ¬ ({"y"} : Finset String) ⊂ kdeEx.features.toFinset := by
    decide
  have hsh : ¬ ∃ r ∈ ([[(1 : ℝ), 0]] : List (List ℝ)),
      r.length ≠ kdeEx.features.length := by
    push_neg
    intro r hr
    simp only [List.mem_singleton] at hr
    subst hr
    rfl
  have hflat : (([[(0 : ℝ)]] : List (List ℝ)).flatten.map
      (fun t => [(1 : ℝ), t])) = [[1, 0]] := by
    simp
  have hll : log_likelihood kdeEx [[0]] 1 =
      Except.ok [scoreOne kdeEx (condIdx kdeEx {"y"}) [1, 0]] := by
    rw [log_likelihood, hflat, score_samples, if_neg hc, if_neg hsh]
    rfl
  exact ⟨⟨hy, hll⟩,
    log_prior_unnormalized_and_total kdeEx [[0]]
      [scoreOne kdeEx (condIdx kdeEx {"y"}) [1, 0]] 0 hy hll⟩

/-- **C10.** `log_gauss(x, mu, sigma)` equals the log-density of
`N(mu, sigma²)` exactly when `sigma = 1` (for positive `sigma` the equality
holds if and only if `sigma = 1`, since the normalisation term uses `sigma`
in place of `sigma²`); both nested-sampling posterior callbacks invoke
`log_gauss` with `sigma = 1.0`, where their prior term coincides with the
exact normal log-density. -/
theorem log_gauss_normalization {n : ℕ} (x mu sigma : ℝ)
    (mocks : List (Fin 5 → ℝ)) (ndeLogProb : (Fin 5 → ℝ) → ℝ × ℝ → ℝ)
    (p : Fin n → ℝ × ℝ) (i : Fin n) (hσ : 0 < sigma) :
    log_gauss x mu 1 = normalLogPdf mu 1 x ∧
    (log_gauss x mu sigma = normalLogPdf mu (sigma ^ 2) x ↔ sigma = 1) ∧
    ultranest_analytic_posterior mocks p i =
      normalLogPdf (p i).1 1 0 +
        (mocks.map (fun m => analytic_log_likelihood m
          (fun j => (p j).1) (fun j => (p j).2) i)).sum ∧
    ultranest_NDE_posterior ndeLogProb mocks p i =
      normalLogPdf (p i).1 1 0 +
        (mocks.map (fun m => ndeLogProb m (p i))).sum := by
  have hone : ∀ a b : ℝ, log_gauss a b 1 = normalLogPdf b 1 a := by
    intro a b
    rw [log_gauss, normalLogPdf]
    norm_num
  refine ⟨hone x mu, ?_, ?_, ?_⟩
  · have hπσ : 2 * Real.pi * sigma ≠ 0 := by positivity
    have hσne : sigma ≠ 0 := ne_of_gt hσ
    have hfact : 2 * Real.pi * sigma ^ 2 = 2 * Real.pi * sigma * sigma := by
      ring
    rw [log_gauss, normalLogPdf, hfact, Real.log_mul hπσ hσne]
    constructor
    · intro h
      have hlog : Real.log sigma = 0 := by linarith
      rcases Real.log_eq_zero.mp hlog with h0 | h1 | hm1
      · exact absurd h0 hσne
      · exact h1
      · linarith
    · intro h
      subst h
      rw [Real.log_one]
      ring
  · rw [ultranest_analytic_posterior, hone 0 (p i).1]
  · rw [ultranest_NDE_posterior, hone 0 (p i).1]

/-- **C10 witness.** The normalisation facts evaluated at `sigma = 2` with a
concrete parameter row and empty mock set. -/
theorem log_gauss_normalization_witness :
    ((0 : ℝ) < 2) ∧
    (log_gauss 0 0 1 = normalLogPdf 0 1 0 ∧
      (log_gauss 0 0 2 = normalLogPdf 0 ((2 : ℝ) ^ 2) 0 ↔ (2 : ℝ) = 1) ∧
      ultranest_analytic_posterior [] (fun _ : Fin 1 => ((0 : ℝ), (1 : ℝ))) 0 =
        normalLogPdf 0 1 0 + (([] : List (Fin 5 → ℝ)).map (fun m =>
          analytic_log_likelihood m (fun _ : Fin 1 => (0 : ℝ))
            (fun _ => (1 : ℝ)) 0)).sum ∧
      ultranest_NDE_posterior (fun _ _ => 0) []
          (fun _ : Fin 1 => ((0 : ℝ), (1 : ℝ))) 0 =
        normalLogPdf 0 1 0 + (([] : List (Fin 5 → ℝ)).map (fun m =>
          (fun (_ : Fin 5 → ℝ) (_ : ℝ × ℝ) => (0 : ℝ)) m (0, 1))).sum) := by
  exact ⟨by norm_num,
    log_gauss_normalization 0 0 2 [] (fun _ _ => 0)
      (fun _ : Fin 1 => ((0 : ℝ), (1 : ℝ))) 0 (by norm_num)⟩

end Notebook
